import Mathlib

/-!
Verification of the SentinelLens audit pipeline specification against the
repository.  The repository ships the Next.js frontend, infrastructure
templates and documentation; the FastAPI backend that implements the audit
pipeline (query text extractor, coverage aggregator, savings calculator,
report assembler, orchestrator) is referenced by the documentation but its
source is not part of the repository, so those components are modelled
faithfully from the specification text.  Frontend components
(report page, approval page, progress page, type declarations) are embedded
from the TypeScript source.
-/

namespace SentinelLens

/-! ### Savings Calculator (spec §4.3) -/

/-- Modelled from the spec: the Savings Calculator's `calculate` is absent from
the repository (only `calculate_savings` tool documentation exists).  Formula per
§4.3: `monthly_savings = (ingestionGbPerDay * currentTierPrice -
ingestionGbPerDay * targetTierPrice) * 30`, clamped to 0 rather than reporting
negative savings. -/
def monthly_savings (ingestionGbPerDay currentTierPrice targetTierPrice : ℚ) : ℚ :=
  max 0 ((ingestionGbPerDay * currentTierPrice - ingestionGbPerDay * targetTierPrice) * 30)

/-- Modelled from the spec: `annual_savings = monthly_savings * 12` (§4.3). -/
def annual_savings (ingestionGbPerDay currentTierPrice targetTierPrice : ℚ) : ℚ :=
  monthly_savings ingestionGbPerDay currentTierPrice targetTierPrice * 12

/-- Modelled from the spec: SavingsEstimate records the deltas and the unit
prices used, frozen at calculation time for auditability (§3). -/
structure SavingsEstimate where
  monthly : ℚ
  annual : ℚ
  currentTierPrice : ℚ
  targetTierPrice : ℚ
  deriving Repr, DecidableEq

/-- Modelled from the spec: `calculate(ingestionGbPerDay, currentTierPrice,
targetTierPrice) -> SavingsEstimate` (§4.3); prices recorded verbatim. -/
def calculate (ingestionGbPerDay currentTierPrice targetTierPrice : ℚ) : SavingsEstimate :=
  { monthly := monthly_savings ingestionGbPerDay currentTierPrice targetTierPrice
    annual := annual_savings ingestionGbPerDay currentTierPrice targetTierPrice
    currentTierPrice := currentTierPrice
    targetTierPrice := targetTierPrice }

/-- C1: the Savings Calculator computes
`monthly_savings = (ingestionGbPerDay * currentTierPrice - ingestionGbPerDay *
targetTierPrice) * 30` and `annual_savings = monthly_savings * 12`; in
particular, for ingestion 0.1 GB/day, currentTierPrice 0.10 and targetTierPrice
0.002, monthly_savings equals exactly 0.294 and annual_savings equals exactly
3.528 in exact rational arithmetic.  The formula holds on the contract domain
(ingestion ≥ 0) whenever targetTierPrice ≤ currentTierPrice, where the §4.3
clamp is inactive. -/
theorem C1_savings_formula :
    (∀ i c t : ℚ, 0 ≤ i → t ≤ c →
      monthly_savings i c t = (i * c - i * t) * 30) ∧
    (∀ i c t : ℚ, annual_savings i c t = monthly_savings i c t * 12) ∧
    monthly_savings (1/10) (1/10) (2/1000) = 294/1000 ∧
    annual_savings (1/10) (1/10) (2/1000) = 3528/1000 := by
  have hform : ∀ i c t : ℚ, 0 ≤ i → t ≤ c →
      monthly_savings i c t = (i * c - i * t) * 30 := by
    intro i c t hi htc
    have hnn : (0 : ℚ) ≤ (i * c - i * t) * 30 := by nlinarith
    simpa [monthly_savings] using max_eq_right hnn
  refine ⟨hform, fun i c t => rfl, ?_, ?_⟩
  · rw [hform (1/10) (1/10) (2/1000) (by norm_num) (by norm_num)]
    norm_num
  · rw [annual_savings, hform (1/10) (1/10) (2/1000) (by norm_num) (by norm_num)]
    norm_num

/-- Witness for C1 at the concrete Scenario A input. -/
theorem C1_savings_formula_witness :
    monthly_savings (1/10) (1/10) (2/1000) = ((1/10) * (1/10) - (1/10) * (2/1000)) * 30 :=
  C1_savings_formula.1 (1/10) (1/10) (2/1000) (by norm_num) (by norm_num)

/-- C3: the Savings Calculator result is never negative when
targetTierPrice ≤ currentTierPrice; for fixed prices with
targetTierPrice < currentTierPrice, monthly_savings is monotonically
non-decreasing in ingestionGbPerDay; and with equal prices the result is
exactly 0 for every ingestion volume. -/
theorem C3_calculator_guarantees :
    (∀ i c t : ℚ, t ≤ c → 0 ≤ monthly_savings i c t) ∧
    (∀ i1 i2 c t : ℚ, t < c → i1 ≤ i2 →
      monthly_savings i1 c t ≤ monthly_savings i2 c t) ∧
    (∀ i c : ℚ, monthly_savings i c c = 0) := by
  refine ⟨fun i c t _ => le_max_left 0 _, ?_, ?_⟩
  · intro i1 i2 c t htc hi
    have hraw : (i1 * c - i1 * t) * 30 ≤ (i2 * c - i2 * t) * 30 := by nlinarith
    exact max_le_max (le_refl 0) hraw
  · intro i c
    simp [monthly_savings]

/-- Witness for C3 at concrete inputs. -/
theorem C3_calculator_guarantees_witness :
    0 ≤ monthly_savings 3 (1/10) (2/1000) ∧
    monthly_savings 1 (1/10) (2/1000) ≤ monthly_savings 4 (1/10) (2/1000) ∧
    monthly_savings 7 (1/10) (1/10) = 0 :=
  ⟨C3_calculator_guarantees.1 3 (1/10) (2/1000) (by norm_num),
   C3_calculator_guarantees.2.1 1 4 (1/10) (2/1000) (by norm_num) (by norm_num),
   C3_calculator_guarantees.2.2 7 (1/10)⟩

/-! ### Coverage Aggregator (spec §4.2) -/

/-- Query text is modelled at character level, as the extractor must be
insensitive to whitespace and punctuation placement. -/
abbrev Str := List Char

/-- Modelled from the spec: confidence tier enum High / Medium / Low (§3). -/
inductive Confidence where
  | High
  | Medium
  | Low
  deriving Repr, DecidableEq

/-- Numeric rank of a confidence tier; lower rank is worse (§4.2). -/
def confRank : Confidence → ℕ
  | .Low => 0
  | .Medium => 1
  | .High => 2

/-- Worst (lowest) of two confidence tiers (§4.2). -/
def worstConf (a b : Confidence) : Confidence :=
  if confRank a ≤ confRank b then a else b

/-- Modelled from the spec: source kind enum for a QuerySource (§3). -/
inductive SourceKind where
  | Rule
  | Workbook
  | HuntQuery
  deriving Repr, DecidableEq

/-- Modelled from the spec: a QuerySource is an opaque identifier plus its raw
query text and a source kind (§3). -/
structure QuerySource where
  id : String
  text : Str
  kind : SourceKind
  deriving Repr, DecidableEq

/-- Modelled from the spec: ExtractionResult for one QuerySource — table names
found, a confidence tier and optional extraction warnings (§3). -/
structure ExtractionResult where
  tables : List Str
  confidence : Confidence
  warnings : List String
  deriving Repr, DecidableEq

/-- Lower-case an ASCII character (used for case-insensitive table matching,
§4.2). -/
def lowerChar (c : Char) : Char :=
  if 65 ≤ c.toNat ∧ c.toNat ≤ 90 then Char.ofNat (c.toNat + 32) else c

/-- Case-insensitive exact table-name match (§4.2: no fuzzy matching). -/
def tableMatch (a b : Str) : Bool :=
  a.map lowerChar == b.map lowerChar

/-- Does this extraction's table set contain the table name
(case-insensitively)? -/
def mentions (t : Str) (er : ExtractionResult) : Bool :=
  er.tables.any (fun x => tableMatch t x)

/-- Modelled from the spec: CoverageEntry — count of QuerySources referencing
the table, worst contributing confidence, contributing source ids (§3). -/
structure CoverageEntry where
  count : ℕ
  confidence : Confidence
  sources : List String
  deriving Repr, DecidableEq

/-- Coverage of a table with no contributing extractions: count 0, vacuously
High confidence (§4.4 rule 2: vacuously true when there are no matches). -/
def emptyCoverage : CoverageEntry :=
  ⟨0, .High, []⟩

/-- Modelled from the spec: fold all ExtractionResults into the coverage entry
of one table; a QuerySource contributes at most once, however many times its
extraction mentions the table (§4.2). -/
def coverageFor (t : Str) : List (QuerySource × ExtractionResult) → CoverageEntry
  | [] => emptyCoverage
  | (src, er) :: rest =>
    let e := coverageFor t rest
    if mentions t er then
      if src.id ∈ e.sources then e
      else ⟨e.count + 1, worstConf e.confidence er.confidence, src.id :: e.sources⟩
    else e

/-- Modelled from the spec: `aggregate(tableNames, extractions) ->
map<string, CoverageEntry>`; every supplied table is emitted, including those
with zero matches (§4.2). -/
def aggregate (tableNames : List Str)
    (extractions : List (QuerySource × ExtractionResult)) :
    List (Str × CoverageEntry) :=
  tableNames.map (fun t => (t, coverageFor t extractions))

/-- The contributing-source list built by `coverageFor` is exactly the
deduplicated list of ids of extractions mentioning the table, and the count is
its length. -/
theorem coverageFor_sources_spec (t : Str)
    (l : List (QuerySource × ExtractionResult)) :
    (coverageFor t l).sources =
      ((l.filter (fun p => mentions t p.2)).map (fun p => p.1.id)).dedup ∧
    (coverageFor t l).count = (coverageFor t l).sources.length := by
  induction l with
  | nil => simp [coverageFor, emptyCoverage]
  | cons hd rest ih =>
    obtain ⟨src, er⟩ := hd
    obtain ⟨hs, hc⟩ := ih
    by_cases hm : mentions t er
    · have hfilter : List.filter (fun p => mentions t p.2) ((src, er) :: rest)
          = (src, er) :: List.filter (fun p => mentions t p.2) rest := by
        simp [List.filter_cons, hm]
      by_cases hmem : src.id ∈ (coverageFor t rest).sources
      · have hmem2 : src.id ∈ ((rest.filter (fun p => mentions t p.2)).map
            (fun p => p.1.id)) := List.mem_dedup.mp (hs ▸ hmem)
        simp only [coverageFor, hm, if_true]
        rw [if_pos hmem]
        refine ⟨?_, hc⟩
        rw [hs, hfilter, List.map_cons, List.dedup_cons_of_mem hmem2]
      · have hmem2 : src.id ∉ ((rest.filter (fun p => mentions t p.2)).map
            (fun p => p.1.id)) := fun h => hmem (hs ▸ List.mem_dedup.mpr h)
        simp only [coverageFor, hm, if_true]
        rw [if_neg hmem]
        refine ⟨?_, ?_⟩
        · rw [hfilter, List.map_cons, List.dedup_cons_of_not_mem hmem2, hs]
        · simp [hc, hs]
    · have hfilter : List.filter (fun p => mentions t p.2) ((src, er) :: rest)
          = List.filter (fun p => mentions t p.2) rest := by
        simp [List.filter_cons, hm]
      simp only [coverageFor, hm, Bool.false_eq_true, if_false, hfilter]
      exact ⟨hs, hc⟩

/-- C4: for every table and every list of extraction results, the Coverage
Aggregator's coverage count equals the number of distinct QuerySource ids whose
ExtractionResult contains the table name; a single QuerySource mentioning the
table multiple times contributes exactly 1; and the invariant holds for every
CoverageEntry the aggregator emits. -/
theorem C4_coverage_distinct_count :
    (∀ (t : Str) (extractions : List (QuerySource × ExtractionResult)),
      (coverageFor t extractions).count =
        ((extractions.filter (fun p => mentions t p.2)).map
          (fun p => p.1.id)).dedup.length) ∧
    (∀ (t : Str) (src : QuerySource) (er : ExtractionResult),
      mentions t er = true → (coverageFor t [(src, er)]).count = 1) ∧
    (∀ (tableNames : List Str)
      (extractions : List (QuerySource × ExtractionResult))
      (t : Str) (e : CoverageEntry),
      (t, e) ∈ aggregate tableNames extractions →
      e.count = ((extractions.filter (fun p => mentions t p.2)).map
        (fun p => p.1.id)).dedup.length) := by
  have key : ∀ (t : Str) (extractions : List (QuerySource × ExtractionResult)),
      (coverageFor t extractions).count =
        ((extractions.filter (fun p => mentions t p.2)).map
          (fun p => p.1.id)).dedup.length := by
    intro t extractions
    obtain ⟨hs, hc⟩ := coverageFor_sources_spec t extractions
    rw [hc, hs]
  refine ⟨key, ?_, ?_⟩
  · intro t src er hm
    simp [coverageFor, emptyCoverage, hm]
  · intro tableNames extractions t e hmem
    simp only [aggregate, List.mem_map] at hmem
    obtain ⟨t0, _, heq⟩ := hmem
    obtain ⟨rfl, rfl⟩ := Prod.mk.injEq .. ▸ heq
    exact key t0 extractions

/-- Witness for C4: one source mentioning `AuditLogs` twice (in two casings)
still counts once. -/
theorem C4_coverage_distinct_count_witness :
    mentions (['a', 'u', 'd', 'i', 't'])
      ⟨[['A', 'u', 'd', 'i', 't'], ['a', 'u', 'd', 'i', 't']], .High, []⟩ = true ∧
    (coverageFor (['a', 'u', 'd', 'i', 't'])
      [(⟨"rule-1", [], .Rule⟩,
        ⟨[['A', 'u', 'd', 'i', 't'], ['a', 'u', 'd', 'i', 't']], .High, []⟩)]).count = 1 := by
  refine ⟨by decide, ?_⟩
  exact C4_coverage_distinct_count.2.1 (['a', 'u', 'd', 'i', 't'])
    ⟨"rule-1", [], .Rule⟩
    ⟨[['A', 'u', 'd', 'i', 't'], ['a', 'u', 'd', 'i', 't']], .High, []⟩ (by decide)

/-! ### Report Assembler (spec §4.4) -/

/-- Modelled from the spec: storage tier enum (§3). -/
inductive Tier where
  | Hot
  | Basic
  | Archive
  deriving Repr, DecidableEq

/-- Modelled from the spec: TableFact — name, current tier, ingestion volume,
retention days (§3). -/
structure TableFact where
  name : Str
  currentTier : Tier
  ingestionGbPerDay : ℚ
  retentionDays : ℕ
  deriving Repr, DecidableEq

/-- Modelled from the spec: current per-GB price for each tier (§6
`getTierPrices`). -/
structure TierPrices where
  hot : ℚ
  basic : ℚ
  archive : ℚ
  deriving Repr, DecidableEq

/-- Per-GB price of a given tier. -/
def priceOf (p : TierPrices) : Tier → ℚ
  | .Hot => p.hot
  | .Basic => p.basic
  | .Archive => p.archive

/-- Modelled from the spec: report bucket enum (§3). -/
inductive ReportBucket where
  | ArchiveCandidate
  | LowUsage
  | Active
  | Warning
  deriving Repr, DecidableEq

/-- Modelled from the spec: bucket assignment policy, evaluated in order with
first match winning (§4.4).  The spec leaves a zero-coverage, zero-ingestion,
connector-free table unassigned by its four rules; it is defaulted to Active
(do-not-touch) here. -/
def assignBucket (cov : CoverageEntry) (connectors : List String)
    (ingestion : ℚ) : ReportBucket :=
  if cov.count = 0 ∧ connectors ≠ [] then .Warning
  else if cov.count ≠ 0 ∧ cov.confidence = .Low then .Warning
  else if cov.count = 0 ∧ cov.confidence ≠ .Low ∧ 0 < ingestion then .ArchiveCandidate
  else if cov.count = 1 ∨ cov.count = 2 then .LowUsage
  else .Active

/-- One classified table of the assembled report, carrying its
SavingsEstimate (§4.4). -/
structure ReportEntry where
  table : TableFact
  bucket : ReportBucket
  estimate : SavingsEstimate
  deriving Repr, DecidableEq

/-- Modelled from the spec: the assembled Report — the four bucket lists and
the headline totals (§3, §4.4). -/
structure AssembledReport where
  archive_candidates : List ReportEntry
  low_usage_tables : List ReportEntry
  active_tables : List ReportEntry
  warning_tables : List ReportEntry
  total_monthly_savings : ℚ
  total_annual_savings : ℚ
  deriving Repr, DecidableEq

/-- Modelled from the spec: `assemble(tables, coverage, connectorMap, prices)
-> Report` (§4.4); each entry carries a §4.3 SavingsEstimate against current
workspace tier prices, and report totals sum ArchiveCandidate entries only. -/
def assemble (tables : List TableFact) (coverage : Str → CoverageEntry)
    (connectorMap : Str → List String) (prices : TierPrices) : AssembledReport :=
  let entries := tables.map (fun tf =>
    { table := tf
      bucket := assignBucket (coverage tf.name) (connectorMap tf.name) tf.ingestionGbPerDay
      estimate := calculate tf.ingestionGbPerDay (priceOf prices tf.currentTier) prices.archive
      : ReportEntry })
  { archive_candidates := entries.filter (fun e => e.bucket == .ArchiveCandidate)
    low_usage_tables := entries.filter (fun e => e.bucket == .LowUsage)
    active_tables := entries.filter (fun e => e.bucket == .Active)
    warning_tables := entries.filter (fun e => e.bucket == .Warning)
    total_monthly_savings :=
      ((entries.filter (fun e => e.bucket == .ArchiveCandidate)).map
        (fun e => e.estimate.monthly)).sum
    total_annual_savings :=
      ((entries.filter (fun e => e.bucket == .ArchiveCandidate)).map
        (fun e => e.estimate.annual)).sum }

/-! ### Frontend data model and approval screen (frontend/lib/types.ts,
frontend/app/audit/[jobId]/approve/page.tsx) -/

/-- TableRecommendation, per the frontend type declarations.  Numeric fields
are modelled as exact rationals. -/
structure TableRecommendation where
  table_name : String
  table_id : String
  current_tier : String
  recommended_tier : String
  confidence : String
  reason : String
  ingestion_gb_per_day : ℚ
  monthly_savings : ℚ
  annual_savings : ℚ
  rule_coverage_count : ℕ
  workbook_coverage_count : ℕ
  hunt_query_coverage_count : ℕ
  data_connector_count : ℕ
  deriving Repr, DecidableEq

/-- AuditReport, exactly the fields the frontend's type declarations declare
(optional fields are `Option`). -/
structure AuditReport where
  job_id : String
  workspace_id : String
  workspace_name : String
  audit_date : String
  days_lookback : ℕ
  total_tables : ℕ
  total_ingestion_gb_per_day : ℚ
  archive_candidates : List TableRecommendation
  low_usage_tables : List TableRecommendation
  active_tables : List TableRecommendation
  total_monthly_savings : ℚ
  total_annual_savings : ℚ
  kql_parser_accuracy_percentage : ℚ
  warnings : Option (List String)
  errors : Option (List String)
  metadata : Option (List (String × ℚ))
  deriving Repr, DecidableEq

/-- The approval page's `calculateSavings`: sum of `annual_savings` over the
archive candidates whose name is in the selection; 0 when no report is
loaded.  `reduce((sum, t) => sum + t.annual_savings, 0)` is embedded as a left
fold from 0. -/
def calculateSavings (report : Option AuditReport)
    (selectedTables : List String) : ℚ :=
  match report with
  | none => 0
  | some r =>
    ((r.archive_candidates.filter
      (fun t => selectedTables.contains t.table_name)).foldl
        (fun sum t => sum + t.annual_savings) 0)

/-- Left fold of addition from an accumulator equals the accumulator plus the
mapped sum. -/
theorem foldl_add_eq_sum {α : Type} (f : α → ℚ) (l : List α) (a : ℚ) :
    l.foldl (fun sum t => sum + f t) a = a + (l.map f).sum := by
  induction l generalizing a with
  | nil => simp
  | cons hd tl ih => simp [List.foldl_cons, ih, add_assoc]

/-- C2: the assembled report's headline savings totals are the sums of the
per-table savings of the ArchiveCandidate entries only; LowUsage entries are
excluded, and no entry is counted in more than one bucket list; and the
approval screen's displayed total savings equals the sum of annual_savings
over exactly the selected archive candidates — with all candidates selected,
over all archive candidates and nothing else. -/
theorem C2_headline_totals :
    (∀ (tables : List TableFact) (coverage : Str → CoverageEntry)
      (connectorMap : Str → List String) (prices : TierPrices),
      (assemble tables coverage connectorMap prices).total_monthly_savings =
        (((assemble tables coverage connectorMap prices).archive_candidates).map
          (fun e => e.estimate.monthly)).sum ∧
      (assemble tables coverage connectorMap prices).total_annual_savings =
        (((assemble tables coverage connectorMap prices).archive_candidates).map
          (fun e => e.estimate.annual)).sum ∧
      (∀ e : ReportEntry,
        e ∈ (assemble tables coverage connectorMap prices).archive_candidates →
        e ∉ (assemble tables coverage connectorMap prices).low_usage_tables ∧
        e ∉ (assemble tables coverage connectorMap prices).active_tables ∧
        e ∉ (assemble tables coverage connectorMap prices).warning_tables)) ∧
    (∀ (r : AuditReport) (selected : List String),
      calculateSavings (some r) selected =
        ((r.archive_candidates.filter
          (fun t => selected.contains t.table_name)).map
            (fun t => t.annual_savings)).sum) ∧
    (∀ r : AuditReport,
      calculateSavings (some r) (r.archive_candidates.map (fun t => t.table_name)) =
        (r.archive_candidates.map (fun t => t.annual_savings)).sum) := by
  have hsel : ∀ (r : AuditReport) (selected : List String),
      calculateSavings (some r) selected =
        ((r.archive_candidates.filter
          (fun t => selected.contains t.table_name)).map
            (fun t => t.annual_savings)).sum := by
    intro r selected
    simp [calculateSavings, foldl_add_eq_sum]
  refine ⟨?_, hsel, ?_⟩
  · intro tables coverage connectorMap prices
    refine ⟨rfl, rfl, ?_⟩
    intro e he
    simp only [assemble, List.mem_filter] at he ⊢
    obtain ⟨hmem, hb⟩ := he
    have hbe : e.bucket = .ArchiveCandidate := by simpa using hb
    refine ⟨fun h => ?_, fun h => ?_, fun h => ?_⟩ <;>
      · obtain ⟨-, hb2⟩ := h
        rw [hbe] at hb2
        simp at hb2
  · intro r
    rw [hsel]
    have hfull : r.archive_candidates.filter
        (fun t => (r.archive_candidates.map (fun t => t.table_name)).contains
          t.table_name) = r.archive_candidates := by
      apply List.filter_eq_self.mpr
      intro a ha
      have hmm : a.table_name ∈ r.archive_candidates.map (fun t => t.table_name) :=
        List.mem_map.mpr ⟨a, ha, rfl⟩
      exact List.elem_eq_true_of_mem hmm
    rw [hfull]

/-- Witness for C2: a one-table workspace whose single table is an archive
candidate, and a one-candidate frontend report with it selected. -/
theorem C2_headline_totals_witness :
    (⟨⟨['T'], .Hot, 1, 90⟩, .ArchiveCandidate, calculate 1 (1/10) (2/1000)⟩ : ReportEntry) ∉
      (assemble [⟨['T'], .Hot, 1, 90⟩] (fun _ => emptyCoverage) (fun _ => [])
        ⟨1/10, 1/20, 2/1000⟩).low_usage_tables ∧
    calculateSavings (some ⟨"j", "w", "wn", "d", 30, 1, 1,
        [⟨"T", "tid", "Hot", "Archive", "HIGH", "r", 1, 294/1000, 3528/1000, 0, 0, 0, 0⟩],
        [], [], 294/1000, 3528/1000, 92, none, none, none⟩) ["T"] = 3528/1000 := by
  constructor
  · refine ((C2_headline_totals.1 [⟨['T'], .Hot, 1, 90⟩] (fun _ => emptyCoverage)
      (fun _ => []) ⟨1/10, 1/20, 2/1000⟩).2.2 _ ?_).1
    simp [assemble, assignBucket, emptyCoverage, priceOf]
  · rw [C2_headline_totals.2.1]
    norm_num [List.filter]

/-! ### Audit Orchestrator (spec §4.5, §7) -/

/-- Modelled from the spec: the fixed ordered steps of an audit run (§4.5). -/
inductive StepName where
  | inventoryTables
  | ingestionVolumes
  | ruleDefinitions
  | workbookDefinitions
  | huntQueryDefinitions
  | connectorMap
  | runExtractor
  | runCoverage
  | tierPrices
  | runSavings
  | assembleReport
  | persistReport
  deriving Repr, DecidableEq

/-- Modelled from the spec: fixed step order (§4.5). -/
def auditSteps : List StepName :=
  [.inventoryTables, .ingestionVolumes, .ruleDefinitions, .workbookDefinitions,
   .huntQueryDefinitions, .connectorMap, .runExtractor, .runCoverage,
   .tierPrices, .runSavings, .assembleReport, .persistReport]

/-- Modelled from the spec: critical steps are table inventory and ingestion
volumes (§4.5); pricing unavailability is treated as a critical failure too
(§7 PricingUnavailable). -/
def criticalStep : StepName → Bool
  | .inventoryTables => true
  | .ingestionVolumes => true
  | .tierPrices => true
  | _ => false

/-- Modelled from the spec: an error from a remote collaborator call, with a
transient flag (§7: RemoteUnavailable is transient and retried). -/
structure AuditError where
  transient : Bool
  message : String
  deriving Repr, DecidableEq

/-- An environment assigns to each step and attempt number the outcome of that
remote call attempt. -/
def StepEnv : Type :=
  StepName → ℕ → Except AuditError Unit

/-- Modelled from the spec: a step is retried up to 2 times with backoff, for
transient remote failures only (§4.5). -/
def runStepWithRetries (env : StepEnv) (s : StepName) : Except AuditError Unit :=
  match env s 0 with
  | .ok _ => .ok ()
  | .error e0 =>
    if e0.transient then
      match env s 1 with
      | .ok _ => .ok ()
      | .error e1 =>
        if e1.transient then env s 2
        else .error e1
    else .error e0

/-- Modelled from the spec: the run's terminal outcomes — Completed with its
report (abstracted to the accumulated partial-data warnings), or Failed with
the failing step and the triggering error retained (§4.5). -/
inductive RunState where
  | Queued
  | Running (stepIndex : ℕ)
  | AwaitingReport
  | Completed (reportWarnings : List String)
  | Failed (step : StepName) (err : AuditError)
  deriving Repr, DecidableEq

/-- Human-readable label of a step, used for partial-data warnings. -/
def stepLabel : StepName → String
  | .inventoryTables => "inventoryTables"
  | .ingestionVolumes => "getIngestionVolumes"
  | .ruleDefinitions => "listRules"
  | .workbookDefinitions => "listWorkbooks"
  | .huntQueryDefinitions => "listHuntQueries"
  | .connectorMap => "listConnectors"
  | .runExtractor => "runExtractor"
  | .runCoverage => "runCoverage"
  | .tierPrices => "getTierPrices"
  | .runSavings => "runSavings"
  | .assembleReport => "assembleReport"
  | .persistReport => "persistReport"

/-- Modelled from the spec: process the steps in order; a non-critical failure
logs a warning and continues with an empty contribution, a critical failure
transitions the run to Failed with the triggering error retained (§4.5). -/
def runSteps (env : StepEnv) : List StepName → List String → RunState
  | [], warnings => .Completed warnings
  | s :: rest, warnings =>
    match runStepWithRetries env s with
    | .ok _ => runSteps env rest warnings
    | .error e =>
      if criticalStep s then .Failed s e
      else runSteps env rest (warnings ++ [stepLabel s])

/-- Modelled from the spec: `runAudit` drives the fixed step order from an
empty warning log (§4.5, §6). -/
def runAudit (env : StepEnv) : RunState :=
  runSteps env auditSteps []

/-- A report exists only for a Completed run (§6 `getReport`). -/
def reportOf : RunState → Option (List String)
  | .Completed w => some w
  | _ => none

/-- If some critical step in the list fails after retries, processing the list
ends in Failed at a failing critical step, with that step's error. -/
theorem runSteps_critical_failure (env : StepEnv) :
    ∀ (l : List StepName) (w : List String),
      (∃ s ∈ l, criticalStep s = true ∧ ∃ e, runStepWithRetries env s = .error e) →
      ∃ s e, criticalStep s = true ∧ runStepWithRetries env s = .error e ∧
        runSteps env l w = .Failed s e := by
  intro l
  induction l with
  | nil => intro w h; obtain ⟨s, hs, -⟩ := h; exact absurd hs (List.not_mem_nil s)
  | cons s rest ih =>
    intro w h
    cases hrun : runStepWithRetries env s with
    | ok u =>
      obtain ⟨s0, hs0, hcrit, e0, he0⟩ := h
      rcases List.mem_cons.mp hs0 with rfl | hs0r
      · rw [hrun] at he0; exact absurd he0 (by simp)
      · obtain ⟨s1, e1, h1, h2, h3⟩ := ih w ⟨s0, hs0r, hcrit, e0, he0⟩
        exact ⟨s1, e1, h1, h2, by simpa [runSteps, hrun] using h3⟩
    | error e =>
      by_cases hcrit : criticalStep s = true
      · exact ⟨s, e, hcrit, hrun, by simp [runSteps, hrun, hcrit]⟩
      · obtain ⟨s0, hs0, hcrit0, e0, he0⟩ := h
        rcases List.mem_cons.mp hs0 with rfl | hs0r
        · exact absurd hcrit0 hcrit
        · obtain ⟨s1, e1, h1, h2, h3⟩ :=
            ih (w ++ [stepLabel s]) ⟨s0, hs0r, hcrit0, e0, he0⟩
          refine ⟨s1, e1, h1, h2, ?_⟩
          simpa [runSteps, hrun, hcrit] using h3

/-- C7: for every audit run in which a critical step fails after its retries,
the Orchestrator transitions the run to the Failed terminal state with the
triggering error retained, and no report is produced for that run. -/
theorem C7_critical_failure_no_report :
    ∀ env : StepEnv,
      (∃ s ∈ auditSteps, criticalStep s = true ∧
        ∃ e, runStepWithRetries env s = .error e) →
      ∃ s e, criticalStep s = true ∧ runStepWithRetries env s = .error e ∧
        runAudit env = .Failed s e ∧ reportOf (runAudit env) = none := by
  intro env h
  obtain ⟨s, e, h1, h2, h3⟩ := runSteps_critical_failure env auditSteps [] h
  have h4 : runAudit env = .Failed s e := h3
  exact ⟨s, e, h1, h2, h4, by rw [h4]; rfl⟩

/-- Scenario E environment: `getIngestionVolumes` fails non-transiently on
every attempt, all other steps succeed. -/
def envScenarioE : StepEnv :=
  fun s _ =>
    if s = .ingestionVolumes then .error ⟨false, "usage query failed"⟩
    else .ok ()

/-- Witness for C7 at the Scenario E environment. -/
theorem C7_critical_failure_no_report_witness :
    ∃ s e, criticalStep s = true ∧
      runStepWithRetries envScenarioE s = .error e ∧
      runAudit envScenarioE = .Failed s e ∧
      reportOf (runAudit envScenarioE) = none :=
  C7_critical_failure_no_report envScenarioE
    ⟨.ingestionVolumes, by decide, rfl,
      ⟨⟨false, "usage query failed"⟩, rfl⟩⟩

/-! ### Report page renderer (frontend/app/audit/[jobId]/report/page.tsx) -/

/-- A JavaScript runtime error raised during rendering. -/
inductive JsError where
  | typeError (message : String)
  deriving Repr, DecidableEq

/-- The field names the AuditReport interface declares
(frontend/lib/types.ts). -/
def auditReportDeclaredKeys : List String :=
  ["job_id", "workspace_id", "workspace_name", "audit_date", "days_lookback",
   "total_tables", "total_ingestion_gb_per_day", "archive_candidates",
   "low_usage_tables", "active_tables", "total_monthly_savings",
   "total_annual_savings", "kql_parser_accuracy_percentage", "warnings",
   "errors", "metadata"]

/-- Whether a property name is a declared field of the AuditReport interface;
access to any other name on a value of that interface yields `undefined`. -/
def auditReportFieldDefined (key : String) : Bool :=
  auditReportDeclaredKeys.contains key

/-- The report page's render body, embedded in source order.  Each
`report.<key>.<member>` access on an undeclared `<key>` dereferences
`undefined` and throws a TypeError; `new Date(report.timestamp)` with the
undeclared `timestamp` yields an Invalid Date without throwing. -/
def renderReportPage (report : AuditReport) : Except JsError String :=
  let dateLabel := "Invalid Date"
  if auditReportFieldDefined ("summary") then
    if auditReportFieldDefined ("low_usage_candidates") then
      match report.warnings with
      | none =>
        .error (.typeError ("cannot read length of undefined: report.warnings"))
      | some _ =>
        match report.metadata with
        | none =>
          .error (.typeError
            ("cannot read kql_parsing_success_rate of undefined: report.metadata"))
        | some _ => .ok (report.workspace_name ++ " - " ++ dateLabel)
    else
      .error (.typeError
        ("cannot read length of undefined: report.low_usage_candidates"))
  else
    .error (.typeError
      ("cannot read total_tables_analyzed of undefined: report.summary"))

/-- C9: the report screen's rendering function is not total over the
frontend's own declared AuditReport interface: `summary`,
`low_usage_candidates` and `timestamp` are not declared fields, so rendering
any type-conforming report dereferences `undefined` and reaches the
TypeError branch. -/
theorem C9_report_renderer_not_total :
    (∀ report : AuditReport, ∃ e, renderReportPage report = Except.error e) ∧
    auditReportFieldDefined ("summary") = false ∧
    auditReportFieldDefined ("low_usage_candidates") = false ∧
    auditReportFieldDefined ("timestamp") = false ∧
    auditReportFieldDefined ("low_usage_tables") = true ∧
    auditReportFieldDefined ("audit_date") = true := by
  refine ⟨fun report => ⟨.typeError
    ("cannot read total_tables_analyzed of undefined: report.summary"), ?_⟩,
    by decide, by decide, by decide, by decide, by decide⟩
  have hsum : auditReportFieldDefined ("summary") = false := by decide
  simp [renderReportPage, hsum]

/-! ### Progress page (frontend/app/audit/[jobId]/progress/page.tsx,
frontend/lib/types.ts ProgressUpdate) -/

/-- ProgressUpdate, per the frontend type declarations for the SSE stream.
The status is carried as the raw string the page compares against; the type
declaration restricts it to the lowercase literals, captured by
`typeConforming` below. -/
structure ProgressUpdate where
  job_id : String
  status : String
  progress_percentage : ℚ
  current_step : String
  total_steps : ℕ
  message : String
  timestamp : String
  error : Option String
  deriving Repr, DecidableEq

/-- The ProgressUpdate interface declares
`status: "running" | "completed" | "failed"`. -/
def ProgressUpdate.typeConforming (p : ProgressUpdate) : Prop :=
  p.status = "running" ∨ p.status = "completed" ∨ p.status = "failed"

/-- String-valued property access on a ProgressUpdate value; names the
interface does not declare yield `undefined` (`none`). -/
def progressStringField (p : ProgressUpdate) : String → Option String
  | "job_id" => some p.job_id
  | "status" => some p.status
  | "current_step" => some p.current_step
  | "message" => some p.message
  | "timestamp" => some p.timestamp
  | _ => none

/-- The progress page's redirect condition:
`prog.status === "Completed" && prog.job_id === jobId`. -/
def shouldNavigateToReport (jobId : String) (prog : ProgressUpdate) : Bool :=
  prog.status == "Completed" && prog.job_id == jobId

/-- The progress page's current-step box:
`progress?.current_tool || "Initializing..."`. -/
def displayedCurrentTool (progress : Option ProgressUpdate) : String :=
  match progress with
  | none => "Initializing..."
  | some prog => (progressStringField prog ("current_tool")).getD ("Initializing...")

/-- The progress page's status line:
`progress?.status === "Completed" ? "Audit Complete" : "Audit Running"`. -/
def displayedStatus (progress : Option ProgressUpdate) : String :=
  match progress with
  | none => "Audit Running"
  | some prog => if prog.status == "Completed" then ("Audit Complete") else ("Audit Running")

/-- A type-conforming terminal completion event for job-1, as the
ProgressUpdate interface declares it. -/
def completedEvent : ProgressUpdate :=
  { job_id := "job-1"
    status := "completed"
    progress_percentage := 100
    current_step := "generate_report"
    total_steps := 12
    message := "Audit complete"
    timestamp := "2026-02-27T12:00:00Z"
    error := none }

/-- C8: evaluation of the progress page at a type-conforming terminal
completion event.  The page compares the status against the capitalized
literal "Completed" and reads the undeclared `current_tool` field, so on the
event the ProgressUpdate interface actually declares it neither navigates to
the report nor displays the step name, contradicting the page's documented
auto-redirect-on-completion behavior. -/
theorem C8_progress_page_eval :
    completedEvent.typeConforming ∧
    shouldNavigateToReport ("job-1") completedEvent = false ∧
    displayedCurrentTool (some completedEvent) = "Initializing..." ∧
    displayedStatus (some completedEvent) = "Audit Running" :=
  ⟨Or.inr (Or.inl rfl), rfl, rfl, rfl⟩

/-! ### Approval page selection state
(frontend/app/audit/[jobId]/approve/page.tsx) -/

/-- JS `Set.has`. -/
def setHas (s : List String) (x : String) : Bool :=
  s.contains x

/-- JS `Set.add`: inserts if absent. -/
def setAdd (s : List String) (x : String) : List String :=
  if s.contains x then s else s ++ [x]

/-- JS `Set.delete`: removes the element. -/
def setDelete (s : List String) (x : String) : List String :=
  s.filter (fun y => !(y == x))

/-- JS `new Set(list)`: insert the elements in order. -/
def newSetFrom (l : List String) : List String :=
  l.foldl setAdd []

/-- The page's `toggleTable`: delete the name if present, add it
otherwise. -/
def toggleTable (selected : List String) (tableName : String) : List String :=
  if setHas selected tableName then setDelete selected tableName
  else setAdd selected tableName

/-- The page's initial selection (and `selectAll`):
`new Set(report.archive_candidates.map((t) => t.table_name))`. -/
def initSelection (report : AuditReport) : List String :=
  newSetFrom (report.archive_candidates.map (fun t => t.table_name))

/-- The selection-changing interactions the page offers. -/
inductive SelectionEvent where
  | toggle (tableName : String)
  | selectAll
  | deselectAll
  deriving Repr, DecidableEq

/-- Apply one interaction to the selection state. -/
def applyEvent (report : AuditReport) (selected : List String) :
    SelectionEvent → List String
  | .toggle n => toggleTable selected n
  | .selectAll => initSelection report
  | .deselectAll => []

/-- Selection state after a sequence of interactions, starting from the
pre-selected archive candidates. -/
def applyEvents (report : AuditReport) (events : List SelectionEvent) :
    List String :=
  events.foldl (applyEvent report) (initSelection report)

/-- The page renders a toggle checkbox only for the rows of
`report.archive_candidates`, so a toggle event always carries one of their
names. -/
def eventValid (report : AuditReport) : SelectionEvent → Prop
  | .toggle n => n ∈ report.archive_candidates.map (fun t => t.table_name)
  | .selectAll => True
  | .deselectAll => True

/-- The migration request the page posts:
`{ job_id: jobId, selected_tables: Array.from(selectedTables) }`. -/
structure ApprovalRequest where
  job_id : String
  selected_tables : List String
  deriving Repr, DecidableEq

/-- The page's `handleApprove`: refuses an empty selection
(`selectedTables.size === 0`) and otherwise posts the selection. -/
def handleApprove (jobId : String) (selected : List String) :
    Option ApprovalRequest :=
  if selected.length = 0 then none
  else some ⟨jobId, selected⟩

/-- Membership in a JS-set insertion comes from the accumulator or the
inserted elements. -/
theorem mem_foldl_setAdd (l : List String) :
    ∀ (acc : List String) (x : String),
      x ∈ l.foldl setAdd acc → x ∈ acc ∨ x ∈ l := by
  induction l with
  | nil => intro acc x h; exact Or.inl h
  | cons hd tl ih =>
    intro acc x h
    rcases ih (setAdd acc hd) x h with hacc | htl
    · rw [setAdd] at hacc
      by_cases hc : acc.contains hd
      · rw [if_pos hc] at hacc
        exact Or.inl hacc
      · rw [if_neg hc] at hacc
        rcases List.mem_append.mp hacc with hx | hx
        · exact Or.inl hx
        · exact Or.inr (by simp [List.mem_singleton.mp hx])
    · exact Or.inr (List.mem_cons_of_mem hd htl)

/-- Elements of the initial selection are archive-candidate names. -/
theorem mem_initSelection (report : AuditReport) (x : String) :
    x ∈ initSelection report →
    x ∈ report.archive_candidates.map (fun t => t.table_name) := by
  intro h
  rcases mem_foldl_setAdd _ [] x h with hacc | hl
  · exact absurd hacc (List.not_mem_nil x)
  · exact hl

/-- Every interaction preserves the candidate-subset property of the
selection. -/
theorem applyEvent_subset (report : AuditReport) (selected : List String)
    (ev : SelectionEvent) (hval : eventValid report ev)
    (hsub : ∀ x ∈ selected,
      x ∈ report.archive_candidates.map (fun t => t.table_name)) :
    ∀ x ∈ applyEvent report selected ev,
      x ∈ report.archive_candidates.map (fun t => t.table_name) := by
  intro x hx
  cases ev with
  | toggle n =>
    simp only [applyEvent, toggleTable] at hx
    by_cases hc : setHas selected n
    · rw [if_pos hc] at hx
      exact hsub x (List.mem_of_mem_filter hx)
    · rw [if_neg hc] at hx
      simp only [setAdd] at hx
      by_cases hc2 : selected.contains n
      · rw [if_pos hc2] at hx
        exact hsub x hx
      · rw [if_neg hc2] at hx
        rcases List.mem_append.mp hx with hx | hx
        · exact hsub x hx
        · have hxn : x = n := by simpa using hx
          exact hxn ▸ hval
  | selectAll => exact mem_initSelection report x hx
  | deselectAll => exact absurd hx (List.not_mem_nil x)

/-- C10: the selected set is always a subset of the archive-candidate names —
initialized to all of them and preserved by every toggle / select-all /
deselect-all — and `handleApprove` posts a migration request only for a
non-empty selection, so every issued request names a non-empty subset of the
archive candidates. -/
theorem C10_selection_subset_invariant :
    (∀ (report : AuditReport) (events : List SelectionEvent),
      (∀ ev ∈ events, eventValid report ev) →
      ∀ x ∈ applyEvents report events,
        x ∈ report.archive_candidates.map (fun t => t.table_name)) ∧
    (∀ jobId : String, handleApprove jobId [] = none) ∧
    (∀ (report : AuditReport) (events : List SelectionEvent)
      (jobId : String) (req : ApprovalRequest),
      (∀ ev ∈ events, eventValid report ev) →
      handleApprove jobId (applyEvents report events) = some req →
      req.selected_tables ≠ [] ∧
      ∀ x ∈ req.selected_tables,
        x ∈ report.archive_candidates.map (fun t => t.table_name)) := by
  have hsubset : ∀ (report : AuditReport) (events : List SelectionEvent),
      (∀ ev ∈ events, eventValid report ev) →
      ∀ x ∈ applyEvents report events,
        x ∈ report.archive_candidates.map (fun t => t.table_name) := by
    intro report events
    rw [applyEvents]
    have hgen : ∀ (sel : List String),
        (∀ x ∈ sel, x ∈ report.archive_candidates.map (fun t => t.table_name)) →
        (∀ ev ∈ events, eventValid report ev) →
        ∀ x ∈ events.foldl (applyEvent report) sel,
          x ∈ report.archive_candidates.map (fun t => t.table_name) := by
      induction events with
      | nil => intro sel hsel _ x hx; exact hsel x hx
      | cons ev rest ih =>
        intro sel hsel hval x hx
        refine ih (applyEvent report sel ev)
          (applyEvent_subset report sel ev (hval ev (by simp)) hsel) ?_ x hx
        intro ev2 h2
        exact hval ev2 (List.mem_cons_of_mem ev h2)
    exact hgen (initSelection report) (mem_initSelection report)
  refine ⟨hsubset, fun jobId => rfl, ?_⟩
  intro report events jobId req hval happ
  by_cases hlen : (applyEvents report events).length = 0
  · rw [handleApprove, if_pos hlen] at happ
    exact absurd happ (by simp)
  · rw [handleApprove, if_neg hlen] at happ
    have hreq : req = ⟨jobId, applyEvents report events⟩ := by
      exact (Option.some.injEq .. ▸ happ).symm
    constructor
    · intro hnil
      apply hlen
      have hsel : (⟨jobId, applyEvents report events⟩ :
          ApprovalRequest).selected_tables = [] := hreq ▸ hnil
      simpa using congrArg List.length hsel
    · intro x hx
      refine hsubset report events hval x ?_
      rw [hreq] at hx
      exact hx

/-- A concrete two-candidate report for exercising the approval page. -/
def approvalDemoReport : AuditReport :=
  ⟨"j", "w", "wn", "d", 30, 2, 2,
    [⟨"A", "a", "Hot", "Archive", "HIGH", "r", 1, 1, 12, 0, 0, 0, 0⟩,
     ⟨"B", "b", "Hot", "Archive", "HIGH", "r", 1, 1, 12, 0, 0, 0, 0⟩],
    [], [], 2, 24, 92, none, none, none⟩

/-- Witness for C10: on the two-candidate report, with candidate A toggled
off, the issued request names the non-empty subset containing B. -/
theorem C10_selection_subset_invariant_witness :
    (⟨"job-1", ["B"]⟩ : ApprovalRequest).selected_tables ≠ [] ∧
    ∀ x ∈ (⟨"job-1", ["B"]⟩ : ApprovalRequest).selected_tables,
      x ∈ approvalDemoReport.archive_candidates.map (fun t => t.table_name) :=
  C10_selection_subset_invariant.2.2 approvalDemoReport
    [.toggle ("A")] ("job-1") ⟨"job-1", ["B"]⟩
    (by
      intro ev hev
      have hev2 : ev = .toggle ("A") := by simpa using hev
      subst hev2
      simp [eventValid, approvalDemoReport])
    (by rfl)

/-! ### Query Text Extractor (spec §4.1) -/

/-- ASCII whitespace test (space, tab, newline, carriage return). -/
def isSpaceB (c : Char) : Bool :=
  c.toNat = 32 || c.toNat = 9 || c.toNat = 10 || c.toNat = 13

/-- ASCII letter test. -/
def isAlphaB (c : Char) : Bool :=
  (65 ≤ c.toNat && c.toNat ≤ 90) || (97 ≤ c.toNat && c.toNat ≤ 122)

/-- ASCII digit test. -/
def isDigitB (c : Char) : Bool :=
  48 ≤ c.toNat && c.toNat ≤ 57

/-- Identifier-character test: letter, digit or underscore (§4.1 simple
identifier grammar). -/
def isIdentCharB (c : Char) : Bool :=
  isAlphaB c || isDigitB c || c.toNat = 95

/-- Simple identifier grammar: letters, digits, underscore, starting with a
letter (§4.1). -/
def isIdentB : Str → Bool
  | [] => false
  | c :: cs => isAlphaB c && cs.all isIdentCharB

/-- Split a character list on a separator; always returns at least one
(possibly empty) part. -/
def splitOnChar (sep : Char) : Str → List Str
  | [] => [[]]
  | c :: cs =>
    match splitOnChar sep cs with
    | [] => [[]]
    | h :: t => if c == sep then [] :: h :: t else (c :: h) :: t

/-- Drop leading whitespace. -/
def trimLeft (l : Str) : Str :=
  l.dropWhile isSpaceB

/-- Drop trailing whitespace. -/
def trimRight (l : Str) : Str :=
  (l.reverse.dropWhile isSpaceB).reverse

/-- Drop surrounding whitespace. -/
def trim (l : Str) : Str :=
  trimRight (trimLeft l)

/-- Strip an expected word from the head of the text, returning the
remainder. -/
def stripWord : Str → Str → Option Str
  | [], l => some l
  | _, [] => none
  | w :: ws, c :: cs => if c == w then stripWord ws cs else none

/-- The `union` operator keyword. -/
def unionKeyword : Str :=
  ['u', 'n', 'i', 'o', 'n']

/-- The `workspace` qualifier keyword. -/
def workspaceKeyword : Str :=
  ['w', 'o', 'r', 'k', 's', 'p', 'a', 'c', 'e']

/-- Take the segment after the last dot: for a `workspace("X").Table`
qualified reference only the final identifier segment is the table name
(§4.1). -/
def afterLastDot (l : Str) : Str :=
  (splitOnChar '.' l).foldl (fun _ p => p) l

/-- Modelled from the spec: parse a stage that is a single bare identifier,
optionally workspace-qualified (§4.1 structural pass). -/
def bareStage (t : Str) : Option (List Str) :=
  let name := afterLastDot (trim t)
  if isIdentB name then some [name] else none

/-- Modelled from the spec: parse the comma-separated identifier list after
the `union` keyword; every extracted token must match the simple identifier
grammar (§4.1 structural pass). -/
def parseUnionList (rest : Str) : Option (List Str) :=
  let names := (splitOnChar ',' rest).map (fun p => afterLastDot (trim p))
  if names.all isIdentB then some names else none

/-- Modelled from the spec: structural parse of the first pipe-separated
stage — either a `union` operator listing comma-separated identifiers or a
single bare identifier (§4.1 structural pass). -/
def parseFirstStage (stage : Str) : Option (List Str) :=
  let t := trimLeft stage
  match stripWord unionKeyword t with
  | some rest =>
    match rest with
    | [] => bareStage t
    | c :: _ => if isSpaceB c then parseUnionList rest else bareStage t
  | none => bareStage t

/-- Maximal identifier-character runs of the text, in order. -/
def tokensOf : Str → List Str
  | [] => []
  | c :: cs =>
    let r := tokensOf cs
    if isIdentCharB c then
      match cs, r with
      | d :: _, t :: ts => if isIdentCharB d then (c :: t) :: ts else [c] :: r
      | _, _ => [c] :: r
    else r

/-- Tokens immediately following a `union` token (§4.1 fallback pass). -/
def followingUnion : List Str → List Str
  | a :: b :: rest =>
    if a == unionKeyword then b :: followingUnion (b :: rest)
    else followingUnion (b :: rest)
  | _ => []

/-- Tokens in the table position of a `workspace(...)."Table"` qualifier: the
token after the workspace keyword and its argument token (§4.1 fallback
pass). -/
def followingWorkspace : List Str → List Str
  | a :: b :: c :: rest =>
    if a == workspaceKeyword then c :: followingWorkspace (b :: c :: rest)
    else followingWorkspace (b :: c :: rest)
  | _ => []

/-- Modelled from the spec: static denylist of known non-table keywords
(§4.1 rule 3). -/
def denylist : List Str :=
  (["union", "workspace", "where", "summarize", "count", "let", "project",
    "extend", "join", "on", "by", "sort", "order", "take", "top", "limit",
    "render", "parse", "evaluate", "search", "find", "print", "distinct",
    "datatable", "range", "mv", "true", "false", "and", "or", "not", "in",
    "has", "between", "asc", "desc"]).map String.toList

/-- Modelled from the spec: candidate tokens of the fallback pass — the first
token of the text, tokens immediately following `union`, and tokens after a
`workspace(...).` qualifier (§4.1 fallback pass). -/
def candidateTokens (text : Str) : List Str :=
  (tokensOf text).take 1 ++ followingUnion (tokensOf text) ++
    followingWorkspace (tokensOf text)

/-- Modelled from the spec: the fallback pass — deduplicated denylist-filtered
candidates give Medium confidence; none found gives Low with an empty result
and a descriptive warning (§4.1 fallback pass, rule 4). -/
def fallbackExtract (text : Str) : ExtractionResult :=
  let cands := ((candidateTokens text).filter
    (fun t => isIdentB t && !(denylist.contains t))).dedup
  if cands.isEmpty then
    ⟨[], .Low, ["no table references found in query text"]⟩
  else
    ⟨cands, .Medium, []⟩

/-- Modelled from the spec: `extract(queryText) -> ExtractionResult` — the
two-tier algorithm: the structural pass over the first pipe-separated stage
gives High confidence, and on its failure the fallback scan runs (§4.1). -/
def extract (queryText : Str) : ExtractionResult :=
  match splitOnChar '|' queryText with
  | [] => fallbackExtract queryText
  | first :: _ =>
    match parseFirstStage first with
    | some names => ⟨names, .High, []⟩
    | none => fallbackExtract queryText

/-! ### Extractor support lemmas -/

/-- Splitting never yields an empty list of parts. -/
theorem splitOnChar_ne_nil (sep : Char) (l : Str) : splitOnChar sep l ≠ [] := by
  cases l with
  | nil => simp [splitOnChar]
  | cons c cs =>
    rw [splitOnChar]
    cases h : splitOnChar sep cs with
    | nil => simp
    | cons h2 t =>
      by_cases hc : c == sep
      · simp [hc]
      · simp [hc]

/-- Splitting a list not containing the separator yields that list alone. -/
theorem splitOnChar_of_not_mem (sep : Char) (l : Str) (h : sep ∉ l) :
    splitOnChar sep l = [l] := by
  induction l with
  | nil => rfl
  | cons c cs ih =>
    have hcs : sep ∉ cs := fun hx => h (List.mem_cons_of_mem c hx)
    have hcne : ¬(c == sep) = true := by
      simp only [beq_iff_eq]
      intro hcc
      exact h (hcc ▸ List.mem_cons_self c cs)
    rw [splitOnChar, ih hcs]
    simp [hcne]

/-- Splitting distributes over an explicit separator occurrence. -/
theorem splitOnChar_append (sep : Char) (l r : Str) (h : sep ∉ l) :
    splitOnChar sep (l ++ sep :: r) = l :: splitOnChar sep r := by
  induction l with
  | nil =>
    rw [List.nil_append, splitOnChar]
    cases hr : splitOnChar sep r with
    | nil => exact absurd hr (splitOnChar_ne_nil sep r)
    | cons h2 t => simp
  | cons c cs ih =>
    have hcs : sep ∉ cs := fun hx => h (List.mem_cons_of_mem c hx)
    have hcne : ¬(c == sep) = true := by
      simp only [beq_iff_eq]
      intro hcc
      exact h (hcc ▸ List.mem_cons_self c cs)
    rw [List.cons_append, splitOnChar, ih hcs]
    simp [hcne]

/-- dropWhile over a satisfied block continues on the remainder. -/
theorem dropWhile_append_of_all (p : Char → Bool) (l r : Str)
    (h : ∀ c ∈ l, p c = true) : (l ++ r).dropWhile p = r.dropWhile p := by
  induction l with
  | nil => rfl
  | cons c cs ih =>
    rw [List.cons_append, List.dropWhile_cons]
    rw [h c (List.mem_cons_self c cs)]
    exact ih (fun x hx => h x (List.mem_cons_of_mem c hx))

/-- dropWhile is the identity when no element satisfies the predicate. -/
theorem dropWhile_of_all_false (p : Char → Bool) (l : Str)
    (h : ∀ c ∈ l, p c = false) : l.dropWhile p = l := by
  cases l with
  | nil => rfl
  | cons c cs =>
    rw [List.dropWhile_cons, h c (List.mem_cons_self c cs)]
    simp

/-- An identifier character is not whitespace. -/
theorem identChar_not_space (c : Char) (h : isIdentCharB c = true) :
    isSpaceB c = false := by
  simp only [isIdentCharB, isAlphaB, isDigitB, Bool.or_eq_true,
    Bool.and_eq_true, decide_eq_true_eq] at h
  simp only [isSpaceB, Bool.or_eq_false_iff, decide_eq_false_iff_not]
  omega

/-- An identifier character is not a pipe, comma or dot. -/
theorem identChar_ne_punct (c : Char) (h : isIdentCharB c = true) :
    c ≠ '|' ∧ c ≠ ',' ∧ c ≠ '.' := by
  refine ⟨fun hc => ?_, fun hc => ?_, fun hc => ?_⟩ <;>
    · subst hc
      exact absurd h (by decide)

/-- A whitespace character is not a pipe, comma or dot. -/
theorem space_ne_punct (c : Char) (h : isSpaceB c = true) :
    c ≠ '|' ∧ c ≠ ',' ∧ c ≠ '.' := by
  refine ⟨fun hc => ?_, fun hc => ?_, fun hc => ?_⟩ <;>
    · subst hc
      exact absurd h (by decide)

/-- A valid identifier is non-empty and consists of identifier characters. -/
theorem identB_chars (nm : Str) (h : isIdentB nm = true) :
    nm ≠ [] ∧ ∀ ch ∈ nm, isIdentCharB ch = true := by
  cases nm with
  | nil => exact absurd h (by simp [isIdentB])
  | cons c cs =>
    rw [isIdentB, Bool.and_eq_true] at h
    refine ⟨by simp, fun ch hch => ?_⟩
    rcases List.mem_cons.mp hch with rfl | hch2
    · exact Bool.or_eq_true_iff.mpr (Or.inl (Bool.or_eq_true_iff.mpr (Or.inl h.1)))
    · exact List.all_eq_true.mp h.2 ch hch2

/-- A successful structural parse of a stage yields a non-empty name list. -/
theorem parseFirstStage_some_ne_nil (stage : Str) (names : List Str)
    (h : parseFirstStage stage = some names) : names ≠ [] := by
  have hbare : ∀ (t : Str) (ns : List Str), bareStage t = some ns → ns ≠ [] := by
    intro t ns hb
    rw [bareStage] at hb
    by_cases hi : isIdentB (afterLastDot (trim t)) = true
    · rw [if_pos hi] at hb
      obtain rfl := (Option.some.injEq .. ▸ hb)
      simp
    · rw [if_neg hi] at hb
      exact absurd hb (by simp)
  have hunion : ∀ (rest : Str) (ns : List Str),
      parseUnionList rest = some ns → ns ≠ [] := by
    intro rest ns hu
    rw [parseUnionList] at hu
    by_cases ha : ((splitOnChar ',' rest).map
        (fun p => afterLastDot (trim p))).all isIdentB = true
    · rw [if_pos ha] at hu
      obtain rfl := (Option.some.injEq .. ▸ hu)
      intro hnil
      exact splitOnChar_ne_nil ',' rest (List.map_eq_nil_iff.mp hnil)
    · rw [if_neg ha] at hu
      exact absurd hu (by simp)
  rw [parseFirstStage] at h
  cases hw : stripWord unionKeyword (trimLeft stage) with
  | none =>
    rw [hw] at h
    exact hbare _ _ h
  | some rest =>
    rw [hw] at h
    cases rest with
    | nil => exact hbare _ _ h
    | cons c cs =>
      have h2 : (if isSpaceB c = true then parseUnionList (c :: cs)
          else bareStage (trimLeft stage)) = some names := h
      by_cases hsp : isSpaceB c = true
      · rw [if_pos hsp] at h2
        exact hunion _ _ h2
      · rw [if_neg hsp] at h2
        exact hbare _ _ h2

/-- C6: for every input text the Query Text Extractor returns a result (it is
a total function, so MalformedQueryText is never propagated); in the worst
case the result is an empty table set with Low confidence and a non-empty
descriptive warning, and otherwise the table set is non-empty. -/
theorem C6_extract_never_raises :
    ∀ queryText : Str,
      (extract queryText).tables ≠ [] ∨
      ((extract queryText).tables = [] ∧
        (extract queryText).confidence = .Low ∧
        (extract queryText).warnings ≠ []) := by
  intro queryText
  have hfb : (fallbackExtract queryText).tables ≠ [] ∨
      ((fallbackExtract queryText).tables = [] ∧
        (fallbackExtract queryText).confidence = .Low ∧
        (fallbackExtract queryText).warnings ≠ []) := by
    rw [fallbackExtract]
    by_cases he : (((candidateTokens queryText).filter
        (fun t => isIdentB t && !(denylist.contains t))).dedup).isEmpty
    · rw [if_pos he]
      exact Or.inr ⟨rfl, rfl, by simp⟩
    · rw [if_neg he]
      exact Or.inl (by simpa [List.isEmpty_iff] using he)
  cases hsplit : splitOnChar '|' queryText with
  | nil =>
    have hred : extract queryText = fallbackExtract queryText := by
      rw [extract, hsplit]
    rw [hred]
    exact hfb
  | cons first restStages =>
    have hred : extract queryText = (match parseFirstStage first with
        | some names => (⟨names, .High, []⟩ : ExtractionResult)
        | none => fallbackExtract queryText) := by
      rw [extract, hsplit]
    cases hparse : parseFirstStage first with
    | none =>
      rw [hred, hparse]
      exact hfb
    | some names =>
      rw [hred, hparse]
      exact Or.inl (parseFirstStage_some_ne_nil first names hparse)

/-! ### C5: texts of the form `union A, B, C` -/

/-- Every character of the list is whitespace. -/
def allSpace (l : Str) : Prop :=
  ∀ c ∈ l, isSpaceB c = true

instance allSpace.dec (l : Str) : Decidable (allSpace l) :=
  List.decidableBAll _ l

/-- One comma-separated item of a union list: leading whitespace, the
identifier, trailing whitespace. -/
def unionItemText (it : Str × Str × Str) : Str :=
  it.1 ++ it.2.1 ++ it.2.2

/-- The remaining items of a union list, each preceded by its comma. -/
def unionTailText : List (Str × Str × Str) → Str
  | [] => []
  | it :: rest => (',' :: unionItemText it) ++ unionTailText rest

/-- Stripping an exact keyword from the front succeeds with the remainder. -/
theorem stripWord_self (w r : Str) : stripWord w (w ++ r) = some r := by
  induction w with
  | nil => simp [stripWord]
  | cons c cs ih =>
    rw [List.cons_append, stripWord]
    simp [ih]

/-- Characters of a well-formed union item are whitespace or identifier
characters. -/
theorem mem_unionItemText (it : Str × Str × Str) (hva : allSpace it.1)
    (hvn : isIdentB it.2.1 = true) (hvb : allSpace it.2.2) :
    ∀ ch ∈ unionItemText it, isSpaceB ch = true ∨ isIdentCharB ch = true := by
  obtain ⟨a, nm, b⟩ := it
  intro ch hch
  rw [unionItemText] at hch
  rcases List.mem_append.mp hch with hch1 | hchb
  · rcases List.mem_append.mp hch1 with hcha | hchn
    · exact Or.inl (hva ch hcha)
    · exact Or.inr ((identB_chars nm hvn).2 ch hchn)
  · exact Or.inl (hvb ch hchb)

/-- Characters of a well-formed union tail are whitespace, identifier
characters or commas. -/
theorem mem_unionTailText (rest : List (Str × Str × Str))
    (hv : ∀ it ∈ rest, allSpace it.1 ∧ isIdentB it.2.1 = true ∧ allSpace it.2.2) :
    ∀ ch ∈ unionTailText rest,
      isSpaceB ch = true ∨ isIdentCharB ch = true ∨ ch = ',' := by
  induction rest with
  | nil => intro ch hch; exact absurd hch (List.not_mem_nil ch)
  | cons it rest2 ih =>
    intro ch hch
    rw [unionTailText] at hch
    rcases List.mem_append.mp hch with hch1 | hch2
    · rcases List.mem_cons.mp hch1 with rfl | hch3
      · exact Or.inr (Or.inr rfl)
      · obtain ⟨h1, h2, h3⟩ := hv it (by simp)
        rcases mem_unionItemText it h1 h2 h3 ch hch3 with hs | hi
        · exact Or.inl hs
        · exact Or.inr (Or.inl hi)
    · exact ih (fun it2 hit2 => hv it2 (List.mem_cons_of_mem it hit2)) ch hch2

/-- A well-formed union item contains no comma. -/
theorem comma_not_mem_unionItemText (it : Str × Str × Str) (hva : allSpace it.1)
    (hvn : isIdentB it.2.1 = true) (hvb : allSpace it.2.2) :
    ',' ∉ unionItemText it := by
  intro h
  rcases mem_unionItemText it hva hvn hvb ',' h with hs | hi
  · exact (space_ne_punct _ hs).2.1 rfl
  · exact (identChar_ne_punct _ hi).2.1 rfl

/-- Surrounding whitespace of a valid identifier trims away exactly. -/
theorem trim_padded (a nm b : Str) (ha : allSpace a) (hn : isIdentB nm = true)
    (hb : allSpace b) : trim (a ++ nm ++ b) = nm := by
  obtain ⟨hne, hchars⟩ := identB_chars nm hn
  obtain ⟨c, cs, rfl⟩ := List.exists_cons_of_ne_nil hne
  have hcns : isSpaceB c = false := identChar_not_space c (hchars c (by simp))
  rw [trim, trimLeft]
  have h1 : (a ++ (c :: cs) ++ b).dropWhile isSpaceB = (c :: cs) ++ b := by
    rw [List.append_assoc, dropWhile_append_of_all _ _ _ ha,
      List.cons_append, List.dropWhile_cons, hcns]
    simp
  rw [h1, trimRight, List.reverse_append,
    dropWhile_append_of_all _ _ _ (fun x hx => hb x (List.mem_reverse.mp hx)),
    dropWhile_of_all_false _ _
      (fun x hx => identChar_not_space x (hchars x (List.mem_reverse.mp hx))),
    List.reverse_reverse]

/-- The table name recovered from a well-formed union item is its
identifier. -/
theorem name_of_unionItemText (it : Str × Str × Str) (hva : allSpace it.1)
    (hvn : isIdentB it.2.1 = true) (hvb : allSpace it.2.2) :
    afterLastDot (trim (unionItemText it)) = it.2.1 := by
  obtain ⟨a, nm, b⟩ := it
  show afterLastDot (trim (a ++ nm ++ b)) = nm
  rw [trim_padded a nm b hva hvn hvb]
  have hdot : '.' ∉ nm := by
    intro h
    exact (identChar_ne_punct _ ((identB_chars nm hvn).2 _ h)).2.2 rfl
  rw [afterLastDot, splitOnChar_of_not_mem _ _ hdot]
  rfl

/-- Splitting a rendered union list on commas recovers the items. -/
theorem split_comma_unionText :
    ∀ (rest : List (Str × Str × Str)),
      (∀ it ∈ rest, ',' ∉ unionItemText it) →
      ∀ (first : Str × Str × Str), ',' ∉ unionItemText first →
      splitOnChar ',' (unionItemText first ++ unionTailText rest) =
        unionItemText first :: rest.map unionItemText := by
  intro rest
  induction rest with
  | nil =>
    intro _ first h1
    rw [unionTailText, List.append_nil, splitOnChar_of_not_mem _ _ h1]
    rfl
  | cons it rest2 ih =>
    intro h first h1
    rw [unionTailText]
    have hassoc : unionItemText first ++
        ((',' :: unionItemText it) ++ unionTailText rest2) =
        unionItemText first ++
          (',' :: (unionItemText it ++ unionTailText rest2)) := by
      simp
    rw [hassoc, splitOnChar_append _ _ _ h1,
      ih (fun it2 hit2 => h it2 (List.mem_cons_of_mem it hit2)) it (h it (by simp))]
    rfl

/-- The structural union-list parse of a rendered union list succeeds with
exactly the identifiers, in order. -/
theorem parseUnionList_unionText (a1 nm1 b1 : Str)
    (rest : List (Str × Str × Str))
    (h1a : allSpace a1) (h1n : isIdentB nm1 = true) (h1b : allSpace b1)
    (hrest : ∀ it ∈ rest,
      allSpace it.1 ∧ isIdentB it.2.1 = true ∧ allSpace it.2.2) :
    parseUnionList (unionItemText (a1, nm1, b1) ++ unionTailText rest) =
      some (nm1 :: rest.map (fun it => it.2.1)) := by
  have hcomma1 : ',' ∉ unionItemText (a1, nm1, b1) :=
    comma_not_mem_unionItemText (a1, nm1, b1) h1a h1n h1b
  have hcommaR : ∀ it ∈ rest, ',' ∉ unionItemText it := by
    intro it hit
    obtain ⟨x1, x2, x3⟩ := hrest it hit
    exact comma_not_mem_unionItemText it x1 x2 x3
  simp only [parseUnionList]
  rw [split_comma_unionText rest hcommaR (a1, nm1, b1) hcomma1,
    List.map_cons, List.map_map]
  have hf : afterLastDot (trim (unionItemText (a1, nm1, b1))) = nm1 :=
    name_of_unionItemText (a1, nm1, b1) h1a h1n h1b
  have hmap : rest.map ((fun p => afterLastDot (trim p)) ∘ unionItemText) =
      rest.map (fun it => it.2.1) := by
    refine List.map_congr_left ?_
    intro it hit
    obtain ⟨x1, x2, x3⟩ := hrest it hit
    exact name_of_unionItemText it x1 x2 x3
  rw [hf, hmap]
  have hall : ((nm1 :: rest.map (fun it => it.2.1)).all isIdentB) = true := by
    rw [List.all_eq_true]
    intro x hx
    rcases List.mem_cons.mp hx with rfl | hx2
    · exact h1n
    · obtain ⟨it, hit, rfl⟩ := List.mem_map.mp hx2
      exact (hrest it hit).2.1
  rw [if_pos hall]

/-- C5: for every query text of the form `union A, B, C` — the union keyword
followed by comma-separated simple identifiers, with any amount of whitespace
around the tokens and an optional further pipe stage — the Query Text
Extractor returns exactly the identifiers with High confidence and no
warnings. -/
theorem C5_union_form_high_confidence :
    ∀ (pre a1 nm1 b1 : Str) (rest : List (Str × Str × Str)) (tail : Str),
      allSpace pre → allSpace a1 → a1 ≠ [] → isIdentB nm1 = true →
      allSpace b1 →
      (∀ it ∈ rest,
        allSpace it.1 ∧ isIdentB it.2.1 = true ∧ allSpace it.2.2) →
      (tail = [] ∨ ∃ r2, tail = '|' :: r2) →
      extract (pre ++ unionKeyword ++ unionItemText (a1, nm1, b1) ++
          unionTailText rest ++ tail) =
        ⟨nm1 :: rest.map (fun it => it.2.1), .High, []⟩ := by
  intro pre a1 nm1 b1 rest tail hpre ha1 ha1ne hnm1 hb1 hrest htail
  have hkwchars : ∀ ch ∈ unionKeyword, isIdentCharB ch = true := by decide
  have hitemchars := mem_unionItemText (a1, nm1, b1) ha1 hnm1 hb1
  have htailchars := mem_unionTailText rest hrest
  have hpipe : '|' ∉ pre ++ unionKeyword ++ unionItemText (a1, nm1, b1) ++
      unionTailText rest := by
    intro hmem
    rcases List.mem_append.mp hmem with hmem1 | hutt
    · rcases List.mem_append.mp hmem1 with hmem2 | huif
      · rcases List.mem_append.mp hmem2 with hpre2 | hkw
        · exact (space_ne_punct _ (hpre _ hpre2)).1 rfl
        · exact (identChar_ne_punct _ (hkwchars _ hkw)).1 rfl
      · rcases hitemchars _ huif with hs | hi
        · exact (space_ne_punct _ hs).1 rfl
        · exact (identChar_ne_punct _ hi).1 rfl
    · rcases htailchars _ hutt with hs | hi | hc
      · exact (space_ne_punct _ hs).1 rfl
      · exact (identChar_ne_punct _ hi).1 rfl
      · exact absurd hc (by decide)
  have hsplit : ∃ restS,
      splitOnChar '|' (pre ++ unionKeyword ++ unionItemText (a1, nm1, b1) ++
        unionTailText rest ++ tail) =
      (pre ++ unionKeyword ++ unionItemText (a1, nm1, b1) ++
        unionTailText rest) :: restS := by
    rcases htail with rfl | ⟨r2, rfl⟩
    · rw [List.append_nil, splitOnChar_of_not_mem _ _ hpipe]
      exact ⟨[], rfl⟩
    · rw [splitOnChar_append _ _ _ hpipe]
      exact ⟨_, rfl⟩
  obtain ⟨restS, hS⟩ := hsplit
  obtain ⟨x, a1t, rfl⟩ := List.exists_cons_of_ne_nil ha1ne
  have hx : isSpaceB x = true := ha1 x (by simp)
  have hXeq : unionItemText (x :: a1t, nm1, b1) ++ unionTailText rest
      = x :: (a1t ++ nm1 ++ b1 ++ unionTailText rest) := by
    simp [unionItemText, List.append_assoc]
  have htl : trimLeft (pre ++ unionKeyword ++ unionItemText (x :: a1t, nm1, b1) ++
      unionTailText rest) =
      unionKeyword ++ (x :: (a1t ++ nm1 ++ b1 ++ unionTailText rest)) := by
    have hb2 : pre ++ unionKeyword ++ unionItemText (x :: a1t, nm1, b1) ++
        unionTailText rest =
        pre ++ (unionKeyword ++ (x :: (a1t ++ nm1 ++ b1 ++ unionTailText rest))) := by
      simp [unionItemText, List.append_assoc]
    rw [trimLeft, hb2, dropWhile_append_of_all _ _ _ hpre]
    rfl
  have hpf : parseFirstStage (pre ++ unionKeyword ++
      unionItemText (x :: a1t, nm1, b1) ++ unionTailText rest) =
      some (nm1 :: rest.map (fun it => it.2.1)) := by
    simp only [parseFirstStage]
    rw [htl, stripWord_self]
    show (if isSpaceB x = true then
        parseUnionList (x :: (a1t ++ nm1 ++ b1 ++ unionTailText rest))
      else bareStage (unionKeyword ++
        (x :: (a1t ++ nm1 ++ b1 ++ unionTailText rest)))) =
      some (nm1 :: rest.map (fun it => it.2.1))
    rw [if_pos hx, ← hXeq]
    exact parseUnionList_unionText (x :: a1t) nm1 b1 rest ha1 hnm1 hb1 hrest
  have hred : extract (pre ++ unionKeyword ++ unionItemText (x :: a1t, nm1, b1) ++
      unionTailText rest ++ tail) =
      (match parseFirstStage (pre ++ unionKeyword ++
          unionItemText (x :: a1t, nm1, b1) ++ unionTailText rest) with
        | some ns => (⟨ns, .High, []⟩ : ExtractionResult)
        | none => fallbackExtract (pre ++ unionKeyword ++
            unionItemText (x :: a1t, nm1, b1) ++ unionTailText rest ++ tail)) := by
    rw [extract, hS]
  rw [hred, hpf]

/-- Witness for C5 at Scenario C:
`union SecurityEvent, SigninLogs | summarize count()`. -/
theorem C5_union_form_high_confidence_witness :
    extract (([] : Str) ++ unionKeyword ++
        unionItemText ([' '], "SecurityEvent".toList, []) ++
        unionTailText [([' '], "SigninLogs".toList, [' '])] ++
        ('|' :: " summarize count()".toList)) =
      ⟨["SecurityEvent".toList, "SigninLogs".toList], .High, []⟩ :=
  C5_union_form_high_confidence [] [' '] ("SecurityEvent".toList) []
    [([' '], "SigninLogs".toList, [' '])] ('|' :: " summarize count()".toList)
    (by decide) (by decide) (by decide) (by decide) (by decide)
    (by decide) (Or.inr ⟨_, rfl⟩)

end SentinelLens
